import Mathlib

/-!
Verification of the `bignum_shift_right` component.

The repository ships the public header `src/include/bignum_shift_right.h`
(status enum and prototype) and four C test files; the C body of
`bignum_shift_right` and the `bignum_t` definition from `bignum.h` are not
part of the sources here.  The data model and the shift algorithm are
therefore modelled from the design document (`spec.md`, sections 3 and 4.1),
with every behavioural choice pinned by the deterministic tests in
`src/tests/test_bignum_shift_right.c` and
`src/tests/test_bignum_shift_right_extra.c`.

Words are modelled as natural numbers that the representation invariant
bounds by `2 ^ 64`; the word buffer is a list whose length plays the role of
`BIGNUM_CAPACITY`; the `size_t` shift amount is a natural number.
-/

namespace BignumShiftRight

/-- Modelled from the spec: section 3 of `spec.md` — the `bignum_t` value type
from the missing header `bignum.h`: a fixed-capacity little-endian buffer of
64-bit words (`words`, whose list length plays the role of
`BIGNUM_CAPACITY`) together with the logical length `len`. -/
structure bignum_t where
  words : List Nat
  len : Nat
deriving DecidableEq

/-- Status codes of `bignum_shift_right`, from the enum
`bignum_shift_right_status_t` in `src/include/bignum_shift_right.h`. -/
inductive bignum_shift_right_status_t where
  | BIGNUM_SHIFT_RIGHT_SUCCESS
  | BIGNUM_SHIFT_RIGHT_ERROR_NULL_ARG
  | BIGNUM_SHIFT_RIGHT_ZEROED
deriving DecidableEq

/-- Integer encoding of the status codes, read off the enum initialisers in
`src/include/bignum_shift_right.h` (lines 56-60): `SUCCESS = 0`,
`ERROR_NULL_ARG = -1`, `ZEROED = 1`. -/
def statusCode : bignum_shift_right_status_t → Int
  | .BIGNUM_SHIFT_RIGHT_SUCCESS => 0
  | .BIGNUM_SHIFT_RIGHT_ERROR_NULL_ARG => -1
  | .BIGNUM_SHIFT_RIGHT_ZEROED => 1

/-- Modelled from the spec: section 3 of `spec.md` — the representation
invariant of a valid, normalized `bignum_t`: the logical length fits the
capacity, every word is a 64-bit value, the tail above `len` is zero, and
either `len = 0` or the top word is non-zero. -/
def valid (n : bignum_t) : Prop :=
  n.len ≤ n.words.length ∧
  (∀ w ∈ n.words, w < 2 ^ 64) ∧
  (∀ w ∈ n.words.drop n.len, w = 0) ∧
  (n.len = 0 ∨ n.words.getD (n.len - 1) 0 ≠ 0)

instance (n : bignum_t) : Decidable (valid n) := by
  unfold valid; infer_instance

/-- Little-endian value of a word list: index 0 is least significant. -/
def listValue : List Nat → Nat
  | [] => 0
  | w :: ws => w + 2 ^ 64 * listValue ws

/-- Integer value represented by a `bignum_t` (the whole buffer; by the tail
invariant this agrees with the value of the first `len` words). -/
def value (n : bignum_t) : Nat := listValue n.words

/-- Modelled from the spec: step 5 of section 4.1 — the intra-word right
shift by `bs` bits with carry propagation, first described in
`src/include/bignum_shift_right.h` (algorithm step 6): each word is shifted
right by `bs` and receives the low `bs` bits of the next-higher word in its
top bits; the topmost word is zero-filled. -/
def carryShift (bs : Nat) : List Nat → List Nat
  | [] => []
  | [w] => [w / 2 ^ bs]
  | w :: w2 :: ws => (w / 2 ^ bs + w2 % 2 ^ bs * 2 ^ (64 - bs)) :: carryShift bs (w2 :: ws)

/-- Modelled from the spec: the normalization sweep of step 6 of section 4.1
(strip leading zero words): the logical length after stripping, i.e. one plus
the highest non-zero index. -/
def normLen : List Nat → Nat
  | [] => 0
  | w :: ws =>
    match normLen ws with
    | 0 => if w = 0 then 0 else 1
    | k + 1 => k + 2

/-- Modelled from the spec: step 3 of section 4.1 — zeroing the entire
buffer and setting `len = 0` when every significant word is shifted out. -/
def zeroedOf (n : bignum_t) : bignum_t :=
  { words := List.replicate n.words.length 0, len := 0 }

/-- Modelled from the spec: step 4 of section 4.1 — word relocation: the
significant words that survive dropping the lowest `wshift` words. -/
def keptList (n : bignum_t) (wshift : Nat) : List Nat :=
  (n.words.take n.len).drop wshift

/-- Modelled from the spec: step 5 of section 4.1 — the surviving words
after the residual intra-word shift (a no-op when `bshift = 0`). -/
def shiftedList (n : bignum_t) (wshift bshift : Nat) : List Nat :=
  if bshift = 0 then keptList n wshift else carryShift bshift (keptList n wshift)

/-- Modelled from the spec: steps 4-6 of section 4.1 — word relocation
(drop the lowest `wshift` words), intra-word shift by `bshift` bits with
carry, tail re-zeroing up to capacity, and normalization of the length. -/
def shiftWords (n : bignum_t) (wshift bshift : Nat) : bignum_t :=
  { words := shiftedList n wshift bshift ++
      List.replicate (n.words.length - (n.len - wshift)) 0,
    len := normLen (shiftedList n wshift bshift) }

/-- Modelled from the spec: the body of `bignum_shift_right` on a non-null
argument, which is absent from `src/` (only its prototype in
`src/include/bignum_shift_right.h` and its tests are present).  Branches,
in order: the trivial zero shift (step 1), the zero-length value (returns
`SUCCESS` unchanged, per section 8 of `spec.md` and
`test_shift_empty_bignum`), the total-loss word-shift check (step 3), and
the relocate/carry/normalize path of steps 4-6; per
`test_shift_to_zero_and_check_status` the status is `ZEROED` whenever the
shift consumed every significant bit, i.e. also when the residual bit shift
cleared the last word. -/
def shiftRightCore (n : bignum_t) (s : Nat) : bignum_shift_right_status_t × bignum_t :=
  if s = 0 then (.BIGNUM_SHIFT_RIGHT_SUCCESS, n)
  else if n.len = 0 then (.BIGNUM_SHIFT_RIGHT_SUCCESS, n)
  else if n.len ≤ s / 64 then (.BIGNUM_SHIFT_RIGHT_ZEROED, zeroedOf n)
  else
    let res := shiftWords n (s / 64) (s % 64)
    if res.len = 0 then (.BIGNUM_SHIFT_RIGHT_ZEROED, res)
    else (.BIGNUM_SHIFT_RIGHT_SUCCESS, res)

/-- Modelled from the spec: the full entry point
`bignum_shift_right(bignum_t* num, size_t shift_amount)`; a `none` argument
models a NULL pointer and is rejected first with no mutation
(`src/include/bignum_shift_right.h`, algorithm step 1). -/
def bignum_shift_right (num : Option bignum_t) (shift_amount : Nat) :
    bignum_shift_right_status_t × Option bignum_t :=
  match num with
  | none => (.BIGNUM_SHIFT_RIGHT_ERROR_NULL_ARG, none)
  | some n =>
    let r := shiftRightCore n shift_amount
    (r.1, some r.2)

/-- Canonical little-endian word decomposition of a natural number into a
given number of 64-bit words; used to state uniqueness of the normalized
representation. -/
def canonWords : Nat → Nat → List Nat
  | 0, _ => []
  | c + 1, x => x % 2 ^ 64 :: canonWords c (x / 2 ^ 64)

/-! ### Arithmetic of little-endian word lists -/

theorem listValue_eq_zero_iff (l : List Nat) : listValue l = 0 ↔ ∀ w ∈ l, w = 0 := by
  induction l with
  | nil => simp [listValue]
  | cons w ws ih =>
    simp only [listValue, List.mem_cons]
    constructor
    · intro h
      have hw : w = 0 := by omega
      have hws : 2 ^ 64 * listValue ws = 0 := by omega
      have hws0 : listValue ws = 0 := by
        rcases Nat.mul_eq_zero.mp hws with h' | h'
        · exact absurd h' (by positivity)
        · exact h'
      intro x hx
      rcases hx with rfl | hx
      · exact hw
      · exact (ih.mp hws0) x hx
    · intro h
      have hw : w = 0 := h w (Or.inl rfl)
      have hws : listValue ws = 0 := ih.mpr fun x hx => h x (Or.inr hx)
      simp [hw, hws]

theorem listValue_replicate_zero (k : Nat) : listValue (List.replicate k 0) = 0 :=
  (listValue_eq_zero_iff _).mpr fun _ hw => (List.eq_of_mem_replicate hw)

theorem listValue_append (l₁ l₂ : List Nat) :
    listValue (l₁ ++ l₂) = listValue l₁ + 2 ^ (64 * l₁.length) * listValue l₂ := by
  induction l₁ with
  | nil => simp [listValue]
  | cons w ws ih =>
    simp only [List.cons_append, listValue, List.length_cons, List.append_eq]
    rw [ih]
    have h : 64 * (ws.length + 1) = 64 * ws.length + 64 := by ring
    rw [h, pow_add]
    ring

theorem listValue_lt (l : List Nat) (hb : ∀ w ∈ l, w < 2 ^ 64) :
    listValue l < 2 ^ (64 * l.length) := by
  induction l with
  | nil => simp [listValue]
  | cons w ws ih =>
    have hw : w < 2 ^ 64 := hb w (List.mem_cons_self _ _)
    have hws : listValue ws < 2 ^ (64 * ws.length) :=
      ih fun x hx => hb x (List.mem_cons_of_mem _ hx)
    simp only [listValue, List.length_cons]
    have h : 64 * (ws.length + 1) = 64 + 64 * ws.length := by ring
    rw [h, pow_add]
    calc w + 2 ^ 64 * listValue ws + 1
        ≤ 2 ^ 64 + 2 ^ 64 * listValue ws := by omega
      _ = 2 ^ 64 * (listValue ws + 1) := by ring
      _ ≤ 2 ^ 64 * 2 ^ (64 * ws.length) := by
          exact Nat.mul_le_mul_left _ (by omega)

theorem listValue_take_drop (l : List Nat) (k : Nat) :
    listValue l = listValue (l.take k) + 2 ^ (64 * k) * listValue (l.drop k) := by
  induction k generalizing l with
  | zero => simp [listValue]
  | succ k ih =>
    cases l with
    | nil => simp [listValue]
    | cons w ws =>
      simp only [List.take_succ_cons, List.drop_succ_cons, listValue, ih ws]
      have h : 64 * (k + 1) = 64 + 64 * k := by ring
      rw [h, pow_add]
      ring

theorem listValue_drop_eq_div (l : List Nat) (k : Nat) (hb : ∀ w ∈ l, w < 2 ^ 64) :
    listValue (l.drop k) = listValue l / 2 ^ (64 * k) := by
  have ht : listValue (l.take k) < 2 ^ (64 * k) := by
    have h1 : listValue (l.take k) < 2 ^ (64 * (l.take k).length) :=
      listValue_lt _ fun w hw => hb w (List.mem_of_mem_take hw)
    have h2 : (l.take k).length ≤ k := by
      simp [List.length_take]
    exact lt_of_lt_of_le h1 (Nat.pow_le_pow_right (by omega) (by omega))
  rw [listValue_take_drop l k, Nat.add_mul_div_left _ _ (by positivity),
    Nat.div_eq_of_lt ht, Nat.zero_add]

/-! ### The intra-word carry shift -/

theorem carryShift_length (bs : Nat) (l : List Nat) :
    (carryShift bs l).length = l.length := by
  induction l with
  | nil => simp [carryShift]
  | cons w ws ih =>
    cases ws with
    | nil => simp [carryShift]
    | cons w2 ws' =>
      simp only [carryShift, List.length_cons] at ih ⊢
      omega

theorem carryShift_bounded (bs : Nat) (l : List Nat) (hbs : bs ≤ 64)
    (hb : ∀ w ∈ l, w < 2 ^ 64) : ∀ w ∈ carryShift bs l, w < 2 ^ 64 := by
  have hp : (2 : Nat) ^ bs * 2 ^ (64 - bs) = 2 ^ 64 := by
    rw [← pow_add]
    congr 1
    omega
  induction l with
  | nil => simp [carryShift]
  | cons w ws ih =>
    cases ws with
    | nil =>
      simp only [carryShift, List.mem_singleton, forall_eq]
      have hw : w < 2 ^ 64 := hb w (List.mem_cons_self _ _)
      calc w / 2 ^ bs ≤ w := Nat.div_le_self _ _
        _ < 2 ^ 64 := hw
    | cons w2 ws' =>
      intro x hx
      simp only [carryShift, List.mem_cons] at hx
      rcases hx with rfl | hx
      · have hw : w < 2 ^ 64 := hb w (List.mem_cons_self _ _)
        have h1 : w / 2 ^ bs < 2 ^ (64 - bs) := by
          rw [Nat.div_lt_iff_lt_mul (by positivity)]
          calc w < 2 ^ 64 := hw
            _ = 2 ^ (64 - bs) * 2 ^ bs := by rw [← pow_add]; congr 1; omega
        have h2 : w2 % 2 ^ bs < 2 ^ bs := Nat.mod_lt _ (by positivity)
        calc w / 2 ^ bs + w2 % 2 ^ bs * 2 ^ (64 - bs)
            < 2 ^ (64 - bs) + w2 % 2 ^ bs * 2 ^ (64 - bs) := by omega
          _ = (w2 % 2 ^ bs + 1) * 2 ^ (64 - bs) := by ring
          _ ≤ 2 ^ bs * 2 ^ (64 - bs) := Nat.mul_le_mul_right _ (by omega)
          _ = 2 ^ 64 := hp
      · exact ih (fun y hy => hb y (List.mem_cons_of_mem _ hy)) x hx

theorem carryShift_div_mod (bs : Nat) (hbs : bs ≤ 64) (l : List Nat) :
    listValue l = 2 ^ bs * listValue (carryShift bs l) + (l.headD 0) % 2 ^ bs := by
  have hp : (2 : Nat) ^ bs * 2 ^ (64 - bs) = 2 ^ 64 := by
    rw [← pow_add]
    congr 1
    omega
  induction l with
  | nil => simp [carryShift, listValue]
  | cons w ws ih =>
    cases ws with
    | nil =>
      simp only [carryShift, listValue, List.headD_cons, mul_zero, add_zero]
      exact (Nat.div_add_mod w (2 ^ bs)).symm
    | cons w2 ws' =>
      simp only [carryShift, listValue, List.headD_cons] at ih ⊢
      rw [ih]
      have hw := Nat.div_add_mod w (2 ^ bs)
      calc w + 2 ^ 64 * (2 ^ bs * listValue (carryShift bs (w2 :: ws')) + w2 % 2 ^ bs)
          = (2 ^ bs * (w / 2 ^ bs) + w % 2 ^ bs) +
              (2 ^ bs * 2 ^ (64 - bs)) * (2 ^ bs * listValue (carryShift bs (w2 :: ws')) + w2 % 2 ^ bs) := by
            rw [hp]
            omega
        _ = 2 ^ bs * (w / 2 ^ bs + w2 % 2 ^ bs * 2 ^ (64 - bs) +
              2 ^ 64 * listValue (carryShift bs (w2 :: ws'))) + w % 2 ^ bs := by
            rw [← hp]
            ring

theorem carryShift_value (bs : Nat) (hbs : bs ≤ 64) (l : List Nat) :
    listValue (carryShift bs l) = listValue l / 2 ^ bs := by
  rw [carryShift_div_mod bs hbs l, Nat.mul_add_div (by positivity),
    Nat.div_eq_of_lt (Nat.mod_lt _ (by positivity)), Nat.add_zero]

/-! ### Indexing helpers for zero tails -/

theorem getD_zero_of_drop (l : List Nat) (k i : Nat)
    (h : ∀ w ∈ l.drop k, w = 0) (hik : k ≤ i) : l.getD i 0 = 0 := by
  induction l generalizing k i with
  | nil => simp [List.getD]
  | cons w ws ih =>
    cases k with
    | zero =>
      cases i with
      | zero =>
        exact h w (by simp)
      | succ j =>
        rw [List.getD_cons_succ]
        exact ih 0 j (fun x hx => h x (by simpa using List.mem_cons_of_mem w hx)) (by omega)
    | succ k' =>
      have hik' : k' + 1 ≤ i := hik
      cases i with
      | zero => omega
      | succ j =>
        rw [List.getD_cons_succ]
        exact ih k' j (fun x hx => h x (by simpa using hx)) (by omega)

theorem drop_zero_of_getD (l : List Nat) (k : Nat)
    (h : ∀ i, k ≤ i → l.getD i 0 = 0) : ∀ w ∈ l.drop k, w = 0 := by
  induction l generalizing k with
  | nil => simp
  | cons w ws ih =>
    cases k with
    | zero =>
      intro x hx
      simp only [List.drop_zero, List.mem_cons] at hx
      rcases hx with rfl | hx
      · simpa using h 0 (by omega)
      · refine ih 0 (fun i _ => ?_) x (by simpa using hx)
        simpa using h (i + 1) (by omega)
    | succ k' =>
      intro x hx
      simp only [List.drop_succ_cons] at hx
      refine ih k' (fun i hi => ?_) x hx
      simpa using h (i + 1) (by omega)

/-! ### Properties of the normalization sweep -/

theorem normLen_le (l : List Nat) : normLen l ≤ l.length := by
  induction l with
  | nil => simp [normLen]
  | cons w ws ih =>
    cases hk : normLen ws with
    | zero =>
      by_cases hw : w = 0 <;> simp [normLen, hk, hw]
    | succ k =>
      rw [hk] at ih
      simp only [normLen, hk, List.length_cons]
      omega

theorem normLen_zero_iff (l : List Nat) : normLen l = 0 ↔ ∀ w ∈ l, w = 0 := by
  induction l with
  | nil => simp [normLen]
  | cons w ws ih =>
    cases hk : normLen ws with
    | zero =>
      have hws : ∀ x ∈ ws, x = 0 := ih.mp hk
      constructor
      · intro h0 x hx
        have hw : w = 0 := by
          by_contra hw
          rw [show normLen (w :: ws) = 1 by simp [normLen, hk, hw]] at h0
          omega
        rcases List.mem_cons.mp hx with rfl | hx
        · exact hw
        · exact hws x hx
      · intro h
        have hw : w = 0 := h w (List.mem_cons_self _ _)
        simp [normLen, hk, hw]
    | succ k =>
      simp only [normLen, hk]
      constructor
      · omega
      · intro h
        have : normLen ws = 0 := ih.mpr fun x hx => h x (List.mem_cons_of_mem _ hx)
        omega

theorem normLen_getD_zero (l : List Nat) (i : Nat) (h : normLen l ≤ i) :
    l.getD i 0 = 0 := by
  induction l generalizing i with
  | nil => simp [List.getD]
  | cons w ws ih =>
    cases hk : normLen ws with
    | zero =>
      have hws : ∀ x ∈ ws, x = 0 := (normLen_zero_iff ws).mp hk
      have hwsD : ∀ j, ws.getD j 0 = 0 := fun j =>
        getD_zero_of_drop ws 0 j (by simpa using hws) (by omega)
      by_cases hw : w = 0
      · cases i with
        | zero => simpa using hw
        | succ j => simpa using hwsD j
      · rw [show normLen (w :: ws) = 1 by simp [normLen, hk, hw]] at h
        cases i with
        | zero => omega
        | succ j => simpa using hwsD j
    | succ k =>
      rw [show normLen (w :: ws) = k + 2 by simp [normLen, hk]] at h
      cases i with
      | zero => omega
      | succ j =>
        rw [List.getD_cons_succ]
        exact ih j (by omega)

theorem normLen_top_ne (l : List Nat) (h : 0 < normLen l) :
    l.getD (normLen l - 1) 0 ≠ 0 := by
  induction l with
  | nil => simp [normLen] at h
  | cons w ws ih =>
    cases hk : normLen ws with
    | zero =>
      by_cases hw : w = 0
      · rw [show normLen (w :: ws) = 0 by simp [normLen, hk, hw]] at h
        omega
      · rw [show normLen (w :: ws) = 1 by simp [normLen, hk, hw]]
        simpa using hw
    | succ k =>
      rw [show normLen (w :: ws) = k + 2 by simp [normLen, hk]]
      have := ih (by omega)
      rw [hk] at this
      simpa using this

theorem normLen_unique (l : List Nat) (k : Nat)
    (h2 : ∀ i, k ≤ i → l.getD i 0 = 0) (h3 : k = 0 ∨ l.getD (k - 1) 0 ≠ 0) :
    normLen l = k := by
  rcases Nat.lt_trichotomy (normLen l) k with h | h | h
  · rcases h3 with rfl | h3
    · omega
    · exact absurd (normLen_getD_zero l (k - 1) (by omega)) h3
  · exact h
  · have h0 : 0 < normLen l := by omega
    exact absurd (h2 (normLen l - 1) (by omega)) (normLen_top_ne l h0)

/-! ### Uniqueness of the normalized representation -/

theorem eq_canonWords (l : List Nat) (hb : ∀ w ∈ l, w < 2 ^ 64) :
    l = canonWords l.length (listValue l) := by
  induction l with
  | nil => simp [canonWords]
  | cons w ws ih =>
    have hw : w < 2 ^ 64 := hb w (List.mem_cons_self _ _)
    simp only [List.length_cons, canonWords, listValue]
    have hmod : (w + 2 ^ 64 * listValue ws) % 2 ^ 64 = w := by
      rw [Nat.add_mul_mod_self_left, Nat.mod_eq_of_lt hw]
    have hdiv : (w + 2 ^ 64 * listValue ws) / 2 ^ 64 = listValue ws := by
      rw [Nat.add_mul_div_left _ _ (by positivity), Nat.div_eq_of_lt hw, Nat.zero_add]
    rw [hmod, hdiv]
    exact congrArg (w :: ·) (ih fun x hx => hb x (List.mem_cons_of_mem _ hx))

theorem valid_value_eq_take (n : bignum_t) (hv : valid n) :
    value n = listValue (n.words.take n.len) := by
  obtain ⟨-, -, htail, -⟩ := hv
  have hd : listValue (n.words.drop n.len) = 0 := (listValue_eq_zero_iff _).mpr htail
  rw [value, listValue_take_drop n.words n.len, hd, Nat.mul_zero, Nat.add_zero]

theorem valid_value_lt (n : bignum_t) (hv : valid n) :
    value n < 2 ^ (64 * n.len) := by
  have hlen := hv.1
  rw [valid_value_eq_take n hv]
  have h1 : listValue (n.words.take n.len) < 2 ^ (64 * (n.words.take n.len).length) :=
    listValue_lt _ fun w hw => hv.2.1 w (List.mem_of_mem_take hw)
  have h2 : (n.words.take n.len).length = n.len := by
    simp only [List.length_take]
    omega
  rwa [h2] at h1

theorem valid_len_zero_iff (n : bignum_t) (hv : valid n) :
    n.len = 0 ↔ value n = 0 := by
  obtain ⟨-, -, htail, hnorm⟩ := hv
  constructor
  · intro h0
    rw [h0, List.drop_zero] at htail
    exact (listValue_eq_zero_iff _).mpr htail
  · intro h0
    have hall : ∀ w ∈ n.words, w = 0 := (listValue_eq_zero_iff _).mp h0
    rcases hnorm with h | h
    · exact h
    · exact absurd (getD_zero_of_drop n.words 0 (n.len - 1) (by simpa using hall) (by omega)) h

theorem valid_normLen (n : bignum_t) (hv : valid n) : normLen n.words = n.len := by
  obtain ⟨-, -, htail, hnorm⟩ := hv
  exact normLen_unique n.words n.len
    (fun i hi => getD_zero_of_drop n.words n.len i htail hi) hnorm

theorem valid_ext (a b : bignum_t) (ha : valid a) (hb : valid b)
    (hlen : a.words.length = b.words.length) (hval : value a = value b) : a = b := by
  have hwords : a.words = b.words := by
    have hval' : listValue a.words = listValue b.words := hval
    rw [eq_canonWords a.words ha.2.1, eq_canonWords b.words hb.2.1]
    rw [hlen, hval']
  have hl : a.len = b.len := by
    rw [← valid_normLen a ha, ← valid_normLen b hb, hwords]
  cases a
  cases b
  simp_all

/-! ### Appending zero tails and indexing -/

theorem getD_append_left (l₁ l₂ : List Nat) (i : Nat) (h : i < l₁.length) (d : Nat) :
    (l₁ ++ l₂).getD i d = l₁.getD i d := by
  induction l₁ generalizing i with
  | nil => simp at h
  | cons w ws ih =>
    cases i with
    | zero => simp
    | succ j =>
      simp only [List.cons_append, List.getD_cons_succ]
      exact ih j (by simpa using h)

theorem getD_append_of_zero (l₁ l₂ : List Nat) (k : Nat)
    (h1 : ∀ i, k ≤ i → l₁.getD i 0 = 0) (h2 : ∀ w ∈ l₂, w = 0) :
    ∀ i, k ≤ i → (l₁ ++ l₂).getD i 0 = 0 := by
  induction l₁ generalizing k with
  | nil =>
    intro i _
    simpa using getD_zero_of_drop l₂ 0 i (by simpa using h2) (by omega)
  | cons w ws ih =>
    intro i hi
    cases i with
    | zero =>
      have hk : k = 0 := by omega
      simpa using h1 0 (by omega)
    | succ j =>
      simp only [List.cons_append, List.getD_cons_succ]
      refine ih (k - 1) (fun i' hi' => ?_) j (by omega)
      simpa using h1 (i' + 1) (by omega)

/-! ### The relocation and intra-word shift stages -/

theorem keptList_bounded (n : bignum_t) (wshift : Nat) (hv : valid n) :
    ∀ w ∈ keptList n wshift, w < 2 ^ 64 := fun w hw =>
  hv.2.1 w (List.mem_of_mem_take (List.mem_of_mem_drop hw))

theorem keptList_length (n : bignum_t) (wshift : Nat) (hlen : n.len ≤ n.words.length) :
    (keptList n wshift).length = n.len - wshift := by
  simp only [keptList, List.length_drop, List.length_take]
  omega

theorem keptList_value (n : bignum_t) (wshift : Nat) (hv : valid n) :
    listValue (keptList n wshift) = value n / 2 ^ (64 * wshift) := by
  rw [keptList, listValue_drop_eq_div _ _ (fun w hw => hv.2.1 w (List.mem_of_mem_take hw)),
    ← valid_value_eq_take n hv]

theorem shiftedList_length (n : bignum_t) (wshift bshift : Nat)
    (hlen : n.len ≤ n.words.length) :
    (shiftedList n wshift bshift).length = n.len - wshift := by
  unfold shiftedList
  split
  · exact keptList_length n wshift hlen
  · rw [carryShift_length]
    exact keptList_length n wshift hlen

theorem shiftedList_bounded (n : bignum_t) (wshift bshift : Nat) (hv : valid n)
    (hbs : bshift ≤ 64) : ∀ w ∈ shiftedList n wshift bshift, w < 2 ^ 64 := by
  unfold shiftedList
  split
  · exact keptList_bounded n wshift hv
  · exact carryShift_bounded bshift _ hbs (keptList_bounded n wshift hv)

theorem shiftedList_value (n : bignum_t) (wshift bshift : Nat) (hv : valid n)
    (hbs : bshift ≤ 64) :
    listValue (shiftedList n wshift bshift) = value n / 2 ^ (64 * wshift + bshift) := by
  unfold shiftedList
  split
  · rename_i h0
    rw [keptList_value n wshift hv, h0, Nat.add_zero]
  · rw [carryShift_value bshift hbs _, keptList_value n wshift hv,
      Nat.div_div_eq_div_mul, ← pow_add]

theorem shiftWords_words_length (n : bignum_t) (wshift bshift : Nat)
    (hlen : n.len ≤ n.words.length) :
    (shiftWords n wshift bshift).words.length = n.words.length := by
  simp only [shiftWords, List.length_append, List.length_replicate,
    shiftedList_length n wshift bshift hlen]
  omega

theorem shiftWords_value (n : bignum_t) (wshift bshift : Nat) (hv : valid n)
    (hbs : bshift ≤ 64) :
    value (shiftWords n wshift bshift) = value n / 2 ^ (64 * wshift + bshift) := by
  simp only [shiftWords, value, listValue_append, listValue_replicate_zero,
    Nat.mul_zero, Nat.add_zero]
  exact shiftedList_value n wshift bshift hv hbs

theorem shiftWords_valid (n : bignum_t) (wshift bshift : Nat) (hv : valid n)
    (hbs : bshift ≤ 64) : valid (shiftWords n wshift bshift) := by
  refine ⟨?_, ?_, ?_, ?_⟩
  · simp only [shiftWords, List.length_append]
    exact le_trans (normLen_le _) (Nat.le_add_right _ _)
  · intro w hw
    simp only [shiftWords] at hw
    rcases List.mem_append.mp hw with hw | hw
    · exact shiftedList_bounded n wshift bshift hv hbs w hw
    · rw [List.eq_of_mem_replicate hw]
      positivity
  · refine drop_zero_of_getD _ _ ?_
    exact getD_append_of_zero _ _ _
      (fun i hi => normLen_getD_zero _ i hi)
      (fun w hw => List.eq_of_mem_replicate hw)
  · by_cases h0 : normLen (shiftedList n wshift bshift) = 0
    · exact Or.inl h0
    · refine Or.inr ?_
      have hlt : normLen (shiftedList n wshift bshift) - 1 <
          (shiftedList n wshift bshift).length := by
        have := normLen_le (shiftedList n wshift bshift)
        omega
      simp only [shiftWords]
      rw [getD_append_left _ _ _ hlt]
      exact normLen_top_ne _ (by omega)

/-! ### The four branches of the core shift -/

theorem core_snd (n : bignum_t) (s : Nat) :
    (shiftRightCore n s).2 =
      if s = 0 then n
      else if n.len = 0 then n
      else if n.len ≤ s / 64 then zeroedOf n
      else shiftWords n (s / 64) (s % 64) := by
  simp only [shiftRightCore]
  split_ifs <;> rfl

theorem core_fst (n : bignum_t) (s : Nat) :
    (shiftRightCore n s).1 =
      if s = 0 then .BIGNUM_SHIFT_RIGHT_SUCCESS
      else if n.len = 0 then .BIGNUM_SHIFT_RIGHT_SUCCESS
      else if n.len ≤ s / 64 then .BIGNUM_SHIFT_RIGHT_ZEROED
      else if (shiftWords n (s / 64) (s % 64)).len = 0 then .BIGNUM_SHIFT_RIGHT_ZEROED
      else .BIGNUM_SHIFT_RIGHT_SUCCESS := by
  simp only [shiftRightCore]
  split_ifs <;> rfl

theorem zeroedOf_valid (n : bignum_t) : valid (zeroedOf n) := by
  refine ⟨by simp [zeroedOf], ?_, ?_, Or.inl rfl⟩
  · intro w hw
    rw [List.eq_of_mem_replicate hw]
    positivity
  · intro w hw
    exact List.eq_of_mem_replicate (List.mem_of_mem_drop hw)

theorem zeroedOf_value (n : bignum_t) : value (zeroedOf n) = 0 := by
  simp [zeroedOf, value, listValue_replicate_zero]

theorem core_valid (n : bignum_t) (s : Nat) (hv : valid n) :
    valid (shiftRightCore n s).2 := by
  rw [core_snd]
  split_ifs with h1 h2 h3
  · exact hv
  · exact hv
  · exact zeroedOf_valid n
  · exact shiftWords_valid n _ _ hv (by omega)

theorem core_words_length (n : bignum_t) (s : Nat) (hlen : n.len ≤ n.words.length) :
    ((shiftRightCore n s).2).words.length = n.words.length := by
  rw [core_snd]
  split_ifs with h1 h2 h3
  · rfl
  · rfl
  · simp [zeroedOf]
  · exact shiftWords_words_length n _ _ hlen

theorem core_value (n : bignum_t) (s : Nat) (hv : valid n) :
    value (shiftRightCore n s).2 = value n / 2 ^ s := by
  rw [core_snd]
  split_ifs with h1 h2 h3
  · rw [h1, pow_zero, Nat.div_one]
  · rw [(valid_len_zero_iff n hv).mp h2]
    simp
  · rw [zeroedOf_value]
    symm
    apply Nat.div_eq_of_lt
    calc value n < 2 ^ (64 * n.len) := valid_value_lt n hv
      _ ≤ 2 ^ s := Nat.pow_le_pow_right (by omega) (by omega)
  · have hval := shiftWords_value n (s / 64) (s % 64) hv (by omega)
    rwa [show 64 * (s / 64) + s % 64 = s by omega] at hval

theorem core_zeroed_iff (n : bignum_t) (s : Nat) (hv : valid n)
    (hs : 0 < s) (hl : 0 < n.len) :
    ((shiftRightCore n s).1 = .BIGNUM_SHIFT_RIGHT_ZEROED ↔ value n < 2 ^ s) := by
  rw [core_fst, if_neg (by omega), if_neg (by omega)]
  by_cases h3 : n.len ≤ s / 64
  · rw [if_pos h3]
    constructor
    · intro _
      calc value n < 2 ^ (64 * n.len) := valid_value_lt n hv
        _ ≤ 2 ^ s := Nat.pow_le_pow_right (by omega) (by omega)
    · intro _
      rfl
  · rw [if_neg h3]
    have hval : value (shiftWords n (s / 64) (s % 64)) = value n / 2 ^ s := by
      have h := shiftWords_value n (s / 64) (s % 64) hv (by omega)
      rwa [show 64 * (s / 64) + s % 64 = s by omega] at h
    have hvalid := shiftWords_valid n (s / 64) (s % 64) hv (by omega)
    have hlen0 : (shiftWords n (s / 64) (s % 64)).len = 0 ↔ value n / 2 ^ s = 0 := by
      rw [valid_len_zero_iff _ hvalid, hval]
    have hdiv : value n / 2 ^ s = 0 ↔ value n < 2 ^ s :=
      Nat.div_eq_zero_iff (by positivity)
    by_cases h4 : (shiftWords n (s / 64) (s % 64)).len = 0
    · rw [if_pos h4]
      simp only [true_iff]
      exact hdiv.mp (hlen0.mp h4)
    · rw [if_neg h4]
      constructor
      · intro hc
        exact absurd hc (by simp)
      · intro hc
        exact absurd (hlen0.mpr (hdiv.mpr hc)) h4

theorem core_status_cases (n : bignum_t) (s : Nat) :
    (shiftRightCore n s).1 = .BIGNUM_SHIFT_RIGHT_SUCCESS ∨
      (shiftRightCore n s).1 = .BIGNUM_SHIFT_RIGHT_ZEROED := by
  rw [core_fst]
  split_ifs <;> simp

/-! ### Claims -/

/-- C1: for every valid normalized value `v` with significant bit-length `b` and every
shift amount `s < b`, `bignum_shift_right` returns `SUCCESS` and afterwards the
represented integer is the original value divided by `2 ^ s`, truncated toward zero,
in normalized form. -/
theorem C1_success_and_quotient (v : bignum_t) (s : Nat) (hv : valid v)
    (hs : s < Nat.size (value v)) :
    (shiftRightCore v s).1 = .BIGNUM_SHIFT_RIGHT_SUCCESS ∧
    value (shiftRightCore v s).2 = value v / 2 ^ s ∧
    valid (shiftRightCore v s).2 := by
  have h2s : 2 ^ s ≤ value v := Nat.lt_size.mp hs
  have hlen : 0 < v.len := by
    rcases Nat.eq_zero_or_pos v.len with h0 | h0
    · have hz := (valid_len_zero_iff v hv).mp h0
      have hp : (0:Nat) < 2 ^ s := by positivity
      omega
    · exact h0
  refine ⟨?_, core_value v s hv, core_valid v s hv⟩
  rcases Nat.eq_zero_or_pos s with rfl | hspos
  · rw [core_fst, if_pos rfl]
  · rcases core_status_cases v s with h | h
    · exact h
    · exfalso
      have := (core_zeroed_iff v s hv hspos hlen).mp h
      omega

/-- Witness for C1 at `v = [13]` (value 13, bit-length 4) and `s = 2`. -/
theorem C1_success_and_quotient_witness :
    (shiftRightCore ⟨[13, 0], 1⟩ 2).1 = .BIGNUM_SHIFT_RIGHT_SUCCESS ∧
    value (shiftRightCore ⟨[13, 0], 1⟩ 2).2 = value ⟨[13, 0], 1⟩ / 2 ^ 2 ∧
    valid (shiftRightCore ⟨[13, 0], 1⟩ 2).2 :=
  C1_success_and_quotient ⟨[13, 0], 1⟩ 2 (by decide) (Nat.lt_size.mpr (by decide))

/-- C2 counterexample: the zero value (`len = 0`) is valid and has significant
bit-length 0, so the claim applies to `s = 1 ≥ 0 = b`; but shifting it by 1 returns
`SUCCESS` (as the test `test_shift_empty_bignum` demands for shifts of the empty
value), not `ZEROED` as the claim states. -/
theorem C2_counterexample :
    valid ⟨[0, 0], 0⟩ ∧ Nat.size (value ⟨[0, 0], 0⟩) ≤ 1 ∧
    (shiftRightCore ⟨[0, 0], 0⟩ 1).1 ≠ .BIGNUM_SHIFT_RIGHT_ZEROED :=
  ⟨by decide, Nat.size_le.mpr (by decide), by decide⟩

/-- C2 as amended: for every valid normalized value `v` that is non-zero
(`len > 0`) and every `s ≥ b`, the shift zeroes the value (`len = 0`, all words
zero) and returns `ZEROED`; the zero value itself instead returns `SUCCESS`. -/
theorem C2_zeroed_amended (v : bignum_t) (s : Nat) (hv : valid v) (hl : 0 < v.len)
    (hs : Nat.size (value v) ≤ s) :
    (shiftRightCore v s).1 = .BIGNUM_SHIFT_RIGHT_ZEROED ∧
    (shiftRightCore v s).2.len = 0 ∧
    ∀ w ∈ (shiftRightCore v s).2.words, w = 0 := by
  have hlt : value v < 2 ^ s := Nat.size_le.mp hs
  have hvpos : 0 < value v := by
    rcases Nat.eq_zero_or_pos (value v) with h0 | h0
    · have := (valid_len_zero_iff v hv).mpr h0
      omega
    · exact h0
  have hspos : 0 < s := by
    rcases Nat.eq_zero_or_pos s with rfl | h
    · rw [pow_zero] at hlt
      omega
    · exact h
  refine ⟨(core_zeroed_iff v s hv hspos hl).mpr hlt, ?_, ?_⟩
  · rw [valid_len_zero_iff _ (core_valid v s hv), core_value v s hv]
    exact Nat.div_eq_of_lt hlt
  · have hz : value (shiftRightCore v s).2 = 0 := by
      rw [core_value v s hv]
      exact Nat.div_eq_of_lt hlt
    exact (listValue_eq_zero_iff _).mp hz

/-- Witness for the amended C2 at `v = [1]` (bit-length 1) and `s = 1`. -/
theorem C2_zeroed_amended_witness :
    (shiftRightCore ⟨[1, 0], 1⟩ 1).1 = .BIGNUM_SHIFT_RIGHT_ZEROED ∧
    (shiftRightCore ⟨[1, 0], 1⟩ 1).2.len = 0 ∧
    ∀ w ∈ (shiftRightCore ⟨[1, 0], 1⟩ 1).2.words, w = 0 :=
  C2_zeroed_amended ⟨[1, 0], 1⟩ 1 (by decide) (by decide) (Nat.size_le.mpr (by decide))

/-- C3 counterexample: for `v = [1]` (`len = 1`) and `s = 1` the entry condition
`word_shift = 1 / 64 = 0 < len = 1` holds, so the claim demands `SUCCESS`; the
operation returns `ZEROED` (exactly what `test_shift_to_zero_and_check_status`
requires), because the residual bit shift cleared the last significant bit. -/
theorem C3_counterexample :
    valid ⟨[1, 0], 1⟩ ∧ 0 < (1 : Nat) ∧ 1 / 64 < (⟨[1, 0], 1⟩ : bignum_t).len ∧
    (shiftRightCore ⟨[1, 0], 1⟩ 1).1 ≠ .BIGNUM_SHIFT_RIGHT_SUCCESS := by
  decide

/-- C3 as amended: for every valid normalized `v` and `s > 0` the call returns
`ZEROED` exactly when `v` is non-zero (`len > 0`) and the shifted value
`⌊value v / 2 ^ s⌋` is zero — i.e. when the shift consumed every significant bit,
which can happen with `word_shift < len` via the residual bit shift; otherwise
(including the zero value) it returns `SUCCESS`. -/
theorem C3_zeroed_iff_amended (v : bignum_t) (s : Nat) (hv : valid v) (hs : 0 < s) :
    ((shiftRightCore v s).1 = .BIGNUM_SHIFT_RIGHT_ZEROED ↔
      0 < v.len ∧ value v / 2 ^ s = 0) := by
  rcases Nat.eq_zero_or_pos v.len with h0 | h0
  · rw [core_fst, if_neg (by omega), if_pos h0]
    constructor
    · intro hc
      exact absurd hc (by simp)
    · intro hc
      omega
  · rw [core_zeroed_iff v s hv hs h0]
    have hdiv : value v / 2 ^ s = 0 ↔ value v < 2 ^ s :=
      Nat.div_eq_zero_iff (by positivity)
    constructor
    · intro h
      exact ⟨h0, hdiv.mpr h⟩
    · intro h
      exact hdiv.mp h.2

/-- Witness for the amended C3 at `v = [1]`, `s = 1` (both sides of the iff true). -/
theorem C3_zeroed_iff_amended_witness :
    ((shiftRightCore ⟨[1, 0], 1⟩ 1).1 = .BIGNUM_SHIFT_RIGHT_ZEROED ↔
      0 < (⟨[1, 0], 1⟩ : bignum_t).len ∧ value ⟨[1, 0], 1⟩ / 2 ^ 1 = 0) :=
  C3_zeroed_iff_amended ⟨[1, 0], 1⟩ 1 (by decide) (by decide)

/-- C4: every call on a valid normalized value preserves the representation
invariant: afterwards all words at indices at or above `len` (up to capacity) are
zero, and either `len = 0` with every buffer word zero, or the word at `len - 1`
is non-zero. -/
theorem C4_invariant_preserved (v : bignum_t) (s : Nat) (hv : valid v) :
    (∀ i, (shiftRightCore v s).2.len ≤ i → (shiftRightCore v s).2.words.getD i 0 = 0) ∧
    ((shiftRightCore v s).2.len = 0 ∧ (∀ w ∈ (shiftRightCore v s).2.words, w = 0) ∨
      (shiftRightCore v s).2.words.getD ((shiftRightCore v s).2.len - 1) 0 ≠ 0) := by
  obtain ⟨hlen, hb, htail, hnorm⟩ := core_valid v s hv
  refine ⟨fun i hi => getD_zero_of_drop _ _ i htail hi, ?_⟩
  rcases hnorm with h0 | h0
  · left
    refine ⟨h0, ?_⟩
    rw [h0, List.drop_zero] at htail
    exact htail
  · right
    exact h0

/-- Witness for C4 at `v = [1, 2]` and `s = 65` (result `[1]`). -/
theorem C4_invariant_preserved_witness :
    (∀ i, (shiftRightCore ⟨[1, 2, 0], 2⟩ 65).2.len ≤ i →
      (shiftRightCore ⟨[1, 2, 0], 2⟩ 65).2.words.getD i 0 = 0) ∧
    ((shiftRightCore ⟨[1, 2, 0], 2⟩ 65).2.len = 0 ∧
        (∀ w ∈ (shiftRightCore ⟨[1, 2, 0], 2⟩ 65).2.words, w = 0) ∨
      (shiftRightCore ⟨[1, 2, 0], 2⟩ 65).2.words.getD
        ((shiftRightCore ⟨[1, 2, 0], 2⟩ 65).2.len - 1) 0 ≠ 0) :=
  C4_invariant_preserved ⟨[1, 2, 0], 2⟩ 65 (by decide)

/-- C5: a null value reference is rejected with `ERROR_NULL_ARG` for every shift
amount, and no value is produced or mutated. -/
theorem C5_null_argument (s : Nat) :
    bignum_shift_right none s = (.BIGNUM_SHIFT_RIGHT_ERROR_NULL_ARG, none) := rfl

/-- C6: for every valid normalized value and all shift amounts `s₁, s₂`, shifting
by `s₁` and then by `s₂` yields the same final value as one shift by `s₁ + s₂`. -/
theorem C6_shift_composes (v : bignum_t) (s₁ s₂ : Nat) (hv : valid v) :
    (shiftRightCore (shiftRightCore v s₁).2 s₂).2 = (shiftRightCore v (s₁ + s₂)).2 := by
  have hv1 := core_valid v s₁ hv
  have hv12 := core_valid (shiftRightCore v s₁).2 s₂ hv1
  have hvB := core_valid v (s₁ + s₂) hv
  apply valid_ext _ _ hv12 hvB
  · rw [core_words_length _ s₂ hv1.1, core_words_length v s₁ hv.1,
      core_words_length v (s₁ + s₂) hv.1]
  · rw [core_value _ s₂ hv1, core_value v s₁ hv, core_value v (s₁ + s₂) hv,
      Nat.div_div_eq_div_mul, ← pow_add]

/-- Witness for C6 at `v = [5]`, `s₁ = s₂ = 1`. -/
theorem C6_shift_composes_witness :
    (shiftRightCore (shiftRightCore ⟨[5, 0], 1⟩ 1).2 1).2 =
      (shiftRightCore ⟨[5, 0], 1⟩ (1 + 1)).2 :=
  C6_shift_composes ⟨[5, 0], 1⟩ 1 1 (by decide)

/-- C7: a shift by 0 on a valid value returns `SUCCESS` and leaves the value
(words, length and all) unchanged. -/
theorem C7_zero_shift_identity (v : bignum_t) (_hv : valid v) :
    shiftRightCore v 0 = (.BIGNUM_SHIFT_RIGHT_SUCCESS, v) := by
  simp [shiftRightCore]

/-- Witness for C7 at `v = [123]`. -/
theorem C7_zero_shift_identity_witness :
    shiftRightCore ⟨[123, 0], 1⟩ 0 = (.BIGNUM_SHIFT_RIGHT_SUCCESS, ⟨[123, 0], 1⟩) :=
  C7_zero_shift_identity ⟨[123, 0], 1⟩ (by decide)

/-- C8: shifting a zero-length (value zero) valid value by any amount returns
`SUCCESS` and leaves the value zero-length with all words zero. -/
theorem C8_zero_value_success (v : bignum_t) (s : Nat) (hv : valid v) (h0 : v.len = 0) :
    shiftRightCore v s = (.BIGNUM_SHIFT_RIGHT_SUCCESS, v) ∧
    (shiftRightCore v s).2.len = 0 ∧
    ∀ w ∈ (shiftRightCore v s).2.words, w = 0 := by
  have heq : shiftRightCore v s = (.BIGNUM_SHIFT_RIGHT_SUCCESS, v) := by
    rcases Nat.eq_zero_or_pos s with rfl | hs
    · simp [shiftRightCore]
    · unfold shiftRightCore
      rw [if_neg (by omega), if_pos h0]
  refine ⟨heq, ?_, ?_⟩
  · rw [heq]
    exact h0
  · rw [heq]
    obtain ⟨-, -, htail, -⟩ := hv
    rw [h0, List.drop_zero] at htail
    exact htail

/-- Witness for C8 at the zero value with capacity 2 and `s = 10`. -/
theorem C8_zero_value_success_witness :
    shiftRightCore ⟨[0, 0], 0⟩ 10 = (.BIGNUM_SHIFT_RIGHT_SUCCESS, ⟨[0, 0], 0⟩) ∧
    (shiftRightCore ⟨[0, 0], 0⟩ 10).2.len = 0 ∧
    ∀ w ∈ (shiftRightCore ⟨[0, 0], 0⟩ 10).2.words, w = 0 :=
  C8_zero_value_success ⟨[0, 0], 0⟩ 10 (by decide) (by decide)

/-- C9: `bignum_shift_right` is deterministic — the status and the resulting
value are a pure function of the argument pair `(value, shift_amount)`; equal
inputs give equal outcomes. -/
theorem C9_deterministic (v₁ v₂ : Option bignum_t) (s₁ s₂ : Nat)
    (hv : v₁ = v₂) (hs : s₁ = s₂) :
    bignum_shift_right v₁ s₁ = bignum_shift_right v₂ s₂ := by
  rw [hv, hs]

/-- Witness for C9 at `v = [3]`, `s = 2`. -/
theorem C9_deterministic_witness :
    bignum_shift_right (some ⟨[3, 0], 1⟩) 2 = bignum_shift_right (some ⟨[3, 0], 1⟩) 2 :=
  C9_deterministic (some ⟨[3, 0], 1⟩) (some ⟨[3, 0], 1⟩) 2 2 rfl rfl

/-- C10: the three status codes carry the concrete integer encoding
`SUCCESS = 0`, `ERROR_NULL_ARG = -1`, `ZEROED = 1` and are pairwise distinct,
so a caller can distinguish every outcome and test against zero for success. -/
theorem C10_status_encoding :
    statusCode .BIGNUM_SHIFT_RIGHT_SUCCESS = 0 ∧
    statusCode .BIGNUM_SHIFT_RIGHT_ERROR_NULL_ARG = -1 ∧
    statusCode .BIGNUM_SHIFT_RIGHT_ZEROED = 1 ∧
    statusCode .BIGNUM_SHIFT_RIGHT_SUCCESS ≠ statusCode .BIGNUM_SHIFT_RIGHT_ERROR_NULL_ARG ∧
    statusCode .BIGNUM_SHIFT_RIGHT_SUCCESS ≠ statusCode .BIGNUM_SHIFT_RIGHT_ZEROED ∧
    statusCode .BIGNUM_SHIFT_RIGHT_ERROR_NULL_ARG ≠ statusCode .BIGNUM_SHIFT_RIGHT_ZEROED := by
  decide

end BignumShiftRight
